import Mathlib

/-!
Verification model of the codebase-analyzer-mcp indexing pipeline.

The development shallowly embeds the relevant parts of the program:

* `src/parsers/python_parser.py` — the fallback line-pattern symbol
  extractor and the relationship inferencer for Python;
* `src/db.py` — the SQLite-backed graph store (`DatabaseManager`);
* `src/embeddings.py` — the SpaCy embedding generator (`EmbeddingManager`);
* `src/main.py` — the index operation and semantic-search tool layer.

Python strings are Lean `String`s, machine-level details (timestamps,
`created_at` columns, SQLite rowid internals beyond fresh-id assignment)
are elided only where no claim depends on them, and external collaborators
(the file system, git, the SpaCy model, the sqlite-vec KNN backend) are
abstracted as explicit parameters.
-/

/-! ## Character classes and regex primitives

The Python parsers use `re` patterns over single lines.  The relevant
character classes are `\w` (ASCII letters, digits, underscore — the
sources only ever match ASCII identifiers) and `\s` (Python whitespace).
-/

/-- `\w` of the Python regexes in `src/parsers`: letter, digit or underscore. -/
def isWordChar (c : Char) : Bool :=
  c.isAlpha || c.isDigit || c = '_'

/-- `\s` of the Python regexes: space, tab, newline, carriage return,
vertical tab, form feed. -/
def isPySpace (c : Char) : Bool :=
  c = ' ' || c = '\t' || c = '\n' || c = '\r' || c = '\x0b' || c = '\x0c'

/-- `str.strip()` on a character list: whitespace removed from both ends. -/
def pyStripList (l : List Char) : List Char :=
  ((l.dropWhile isPySpace).reverse.dropWhile isPySpace).reverse

/-- `line.strip()` as the Python sources apply it before anchored matches. -/
def pyStrip (s : String) : String :=
  String.mk (pyStripList s.data)

/-! ### `re.findall(r'(\w+)\s*\(', line)`

`PythonParser.extract_relationships` (src/parsers/python_parser.py:90)
scans each line for identifier-followed-by-open-paren tokens.  A match is
a maximal `\w+` run followed, after optional whitespace, by `(`; scanning
resumes after the consumed `(`.  The left-to-right scan is a three-state
machine over the characters of the line. -/

/-- State of the `(\w+)\s*\(` scanner: outside any candidate, inside a
`\w+` run (accumulated in reverse), or after a run while consuming `\s*`
before the required `(`. -/
inductive ScanState where
  | idle : ScanState
  | run (w : List Char) : ScanState
  | waitParen (w : List Char) : ScanState

/-- The scanner for `re.findall(r'(\w+)\s*\(', line)`: emits every first
capture group, left to right, resuming after each consumed `(`. -/
def callTokensAux : ScanState → List Char → List String
  | _, [] => []
  | .idle, c :: cs =>
      if isWordChar c then callTokensAux (.run [c]) cs
      else callTokensAux .idle cs
  | .run w, c :: cs =>
      if isWordChar c then callTokensAux (.run (c :: w)) cs
      else if c = '(' then String.mk w.reverse :: callTokensAux .idle cs
      else if isPySpace c then callTokensAux (.waitParen w) cs
      else callTokensAux .idle cs
  | .waitParen w, c :: cs =>
      if c = '(' then String.mk w.reverse :: callTokensAux .idle cs
      else if isPySpace c then callTokensAux (.waitParen w) cs
      else if isWordChar c then callTokensAux (.run [c]) cs
      else callTokensAux .idle cs

/-- All `(\w+)\s*\(` capture groups of one line, in order. -/
def callTokens (l : List Char) : List String :=
  callTokensAux .idle l

/-! ### Anchored declaration patterns of `PythonParser` -/

/-- `re.match(r'^def\s+(\w+)\s*\(', s)` — the function pattern of
`PythonParser.extract_symbols_regex` (src/parsers/python_parser.py:50);
returns the first capture group. -/
def matchDefFunc : List Char → Option String
  | 'd' :: 'e' :: 'f' :: c :: rest =>
      if isPySpace c then
        let afterSp := rest.dropWhile isPySpace
        let w := afterSp.takeWhile isWordChar
        if w.isEmpty then none
        else
          match (afterSp.dropWhile isWordChar).dropWhile isPySpace with
          | '(' :: _ => some (String.mk w)
          | _ => none
      else none
  | _ => none

/-- `re.match(r'^class\s+(\w+)', s)` — the class pattern of
`PythonParser.extract_symbols_regex` (src/parsers/python_parser.py:66). -/
def matchClassDecl : List Char → Option String
  | 'c' :: 'l' :: 'a' :: 's' :: 's' :: c :: rest =>
      if isPySpace c then
        let w := (rest.dropWhile isPySpace).takeWhile isWordChar
        if w.isEmpty then none else some (String.mk w)
      else none
  | _ => none

/-- `re.match(r'^class\s+(\w+)\s*\(([^)]+)\)', s)` — the inheritance
pattern of `PythonParser.extract_relationships`
(src/parsers/python_parser.py:111); yields the class name and the
stripped parent text. -/
def matchClassInherit : List Char → Option (String × String)
  | 'c' :: 'l' :: 'a' :: 's' :: 's' :: c :: rest =>
      if isPySpace c then
        let afterSp := rest.dropWhile isPySpace
        let w := afterSp.takeWhile isWordChar
        if w.isEmpty then none
        else
          match (afterSp.dropWhile isWordChar).dropWhile isPySpace with
          | '(' :: r3 =>
              let inner := r3.takeWhile (fun ch => !(ch = ')'))
              if inner.isEmpty then none
              else
                match r3.dropWhile (fun ch => !(ch = ')')) with
                | ')' :: _ => some (String.mk w, String.mk (pyStripList inner))
                | _ => none
          | _ => none
      else none
  | _ => none

/-! ## Parser-level symbols and relationships -/

/-- A symbol dict as the parsers produce it (before the store stamps the
file hash on it). -/
structure ParsedSymbol where
  name : String
  symbolType : String
  lineStart : Nat
  lineEnd : Nat
  codeSnippet : String
  filePath : String
  language : String
deriving DecidableEq

/-- A pending relationship dict as `extract_relationships` produces it. -/
structure RawRel where
  rtype : String
  target : String
  targetType : String
  line : Nat
deriving DecidableEq

/-- `enumerate` over a list starting at `n`. -/
def enumFrom (n : Nat) : List α → List (Nat × α)
  | [] => []
  | a :: l => (n, a) :: enumFrom (n + 1) l

/-- `content.split('\n')` on a character list: the separator-delimited
segments, trailing empties included (`"".split('\n') == [""]`). -/
def splitNl : List Char → List (List Char)
  | [] => [[]]
  | c :: cs =>
      if c = '\n' then [] :: splitNl cs
      else
        match splitNl cs with
        | [] => [[c]]
        | l :: ls => (c :: l) :: ls

/-- `content.split('\n')` as a list of line strings. -/
def pyLines (content : String) : List String :=
  (splitNl content.data).map String.mk

/-- One symbol spanning exactly line `i + 1`, as the line-pattern
extractor builds it. -/
def mkLineSymbol (nm stype : String) (i : Nat) (snippet filePath language : String) :
    ParsedSymbol :=
  { name := nm, symbolType := stype, lineStart := i + 1, lineEnd := i + 1,
    codeSnippet := snippet, filePath := filePath, language := language }

/-- `PythonParser.extract_symbols_regex` (src/parsers/python_parser.py:44):
one pass over all lines for the function pattern, then a second pass for
the class pattern, each match contributing one line-local symbol built
from the stripped line. -/
def extractSymbolsRegex (lines : List String) (filePath language : String) :
    List ParsedSymbol :=
  (enumFrom 0 lines).filterMap (fun p =>
      (matchDefFunc (pyStrip p.2).data).map (fun nm =>
        mkLineSymbol nm "function" p.1 (pyStrip p.2) filePath language))
    ++ (enumFrom 0 lines).filterMap (fun p =>
      (matchClassDecl (pyStrip p.2).data).map (fun nm =>
        mkLineSymbol nm "class" p.1 (pyStrip p.2) filePath language))

/-- The keyword/builtin stoplist of `PythonParser.extract_relationships`
(src/parsers/python_parser.py:93). -/
def pySkipKeywords : List String :=
  ["if", "for", "while", "with", "def", "class", "import", "from", "return", "print"]

/-- The attribution loop of `extract_relationships`: the first symbol in
extraction order whose `[line_start, line_end]` range contains the line
(the Python for-loop with `break`). -/
def firstContaining (symbols : List ParsedSymbol) (ln : Nat) : Option ParsedSymbol :=
  symbols.find? (fun s => decide (s.lineStart ≤ ln) && decide (ln ≤ s.lineEnd))

/-- The `Dict[str, List[dict]]` the inferencer builds, with Python-dict
semantics: buckets in key-first-seen order, values appended in order. -/
abbrev RelDict := List (String × List RawRel)

/-- `relationships[name].append(r)`, creating the bucket if absent. -/
def dictAppend (d : RelDict) (k : String) (r : RawRel) : RelDict :=
  match d with
  | [] => [(k, [r])]
  | (k', rs) :: rest =>
      if k' = k then (k', rs ++ [r]) :: rest
      else (k', rs) :: dictAppend rest k r

/-- The call-scan of one line (src/parsers/python_parser.py:89): every
`identifier(` token not in the stoplist is attributed to the first symbol
whose range contains line `i + 1`; a token on a line contained in no
symbol's range contributes nothing. -/
def addLineCalls (symbols : List ParsedSymbol) (d : RelDict) (i : Nat) (line : String) :
    RelDict :=
  (callTokens line.data).foldl (fun d tok =>
    if tok ∈ pySkipKeywords then d
    else
      match firstContaining symbols (i + 1) with
      | some s => dictAppend d s.name ⟨"calls", tok, "function", i + 1⟩
      | none => d) d

/-- `PythonParser.extract_relationships` (src/parsers/python_parser.py:83):
the call scan over every line, then the inheritance scan over every
stripped line. -/
def extractRelationships (content : String) (symbols : List ParsedSymbol) : RelDict :=
  let lines := pyLines content
  let d1 := (enumFrom 0 lines).foldl (fun d p => addLineCalls symbols d p.1 p.2) []
  (enumFrom 0 lines).foldl (fun d p =>
    match matchClassInherit (pyStrip p.2).data with
    | some q => dictAppend d q.1 ⟨"inherits", q.2, "class", p.1 + 1⟩
    | none => d) d1

/-- The edges a relationship dict holds, flattened to (source-name, rel)
pairs. -/
def dictEdges (d : RelDict) : List (String × RawRel) :=
  d.flatMap (fun p => p.2.map (fun r => (p.1, r)))

/-! ## The graph store (`DatabaseManager`, src/db.py)

Rows of the four tables.  `created_at` columns are not modelled (no claim
depends on them).  SQLite assigns a fresh rowid to every inserted row;
the model carries the next free id in the store state.

The schema declares `ON DELETE CASCADE` on `relationships`, but every
connection `_get_connection` (src/db.py:13) opens leaves SQLite's
default `PRAGMA foreign_keys = OFF` in place — `init_database` enables
the pragma only on its own connection — so the delete operations remove
exactly the rows their own SQL names and no cascade ever fires.  The
model therefore mutates only the tables the executed statements name. -/

/-- A row of the `symbols` table (src/db.py:33). -/
structure SymbolRow where
  id : Nat
  projectId : String
  language : String
  symbolType : String
  name : String
  filePath : String
  lineStart : Nat
  lineEnd : Nat
  codeSnippet : String
  fileHash : String
deriving DecidableEq

/-- A row of the `relationships` table (src/db.py:59). -/
structure RelationshipRow where
  id : Nat
  projectId : String
  sourceSymbolId : Nat
  targetSymbolId : Nat
  relationshipType : String
  relationshipData : Option String
deriving DecidableEq

/-- A row of the `symbol_embeddings` table (src/db.py:77), keyed by the
symbol's id. -/
structure EmbeddingRow where
  id : Nat
  embedding : List Float

/-- A row of the projects table.  Modelled from the spec: the table and
the `DatabaseManager` methods reading and writing it
(`get_project_info`, `create_or_update_project`,
`update_project_scan_info`) are called from `src/main.py` but are not
defined in any file of the repository; §3 of the spec gives the fields
(`last_scan_time` is not modelled — no claim depends on it). -/
structure ProjectRow where
  projectId : String
  path : String
  name : String
  isGitRepo : Bool
  lastCommitHash : Option String
  lastBranch : Option String
deriving DecidableEq

/-- The store state: the four tables plus the next free rowids. -/
structure DB where
  symbols : List SymbolRow
  relationships : List RelationshipRow
  embeddings : List EmbeddingRow
  projects : List ProjectRow
  nextSymbolId : Nat
  nextRelationshipId : Nat

/-- The `UNIQUE(project_id, language, name, file_path, line_start)` key of
the `symbols` table (src/db.py:46). -/
def symKey (r : SymbolRow) : String × String × String × String × Nat :=
  (r.projectId, r.language, r.name, r.filePath, r.lineStart)

/-- The `UNIQUE(project_id, source_symbol_id, target_symbol_id,
relationship_type)` key of the `relationships` table (src/db.py:70). -/
def relKey (r : RelationshipRow) : String × Nat × Nat × String :=
  (r.projectId, r.sourceSymbolId, r.targetSymbolId, r.relationshipType)

/-- The row `DatabaseManager.insert_symbol` builds for a parsed symbol
stamped with its file hash. -/
def mkSymbolRow (db : DB) (p : ParsedSymbol) (fileHash projectId : String) : SymbolRow :=
  { id := db.nextSymbolId, projectId := projectId, language := p.language,
    symbolType := p.symbolType, name := p.name, filePath := p.filePath,
    lineStart := p.lineStart, lineEnd := p.lineEnd, codeSnippet := p.codeSnippet,
    fileHash := fileHash }

/-- `DatabaseManager.insert_symbol` (src/db.py:207): `INSERT OR REPLACE`
on the symbols uniqueness key — SQLite deletes any row conflicting on
the `UNIQUE` constraint and inserts the new row under a fresh rowid,
which is returned. -/
def insertSymbol (db : DB) (p : ParsedSymbol) (fileHash projectId : String) : DB × Nat :=
  let row := mkSymbolRow db p fileHash projectId
  ({ db with
      symbols := db.symbols.filter (fun r => !(decide (symKey r = symKey row))) ++ [row],
      nextSymbolId := db.nextSymbolId + 1 },
   row.id)

/-- `DatabaseManager.insert_relationship` (src/db.py:229): `INSERT OR
REPLACE` on the relationships uniqueness key. -/
def insertRelationship (db : DB) (sourceId targetId : Nat) (rtype projectId : String)
    (dataJson : Option String) : DB × Nat :=
  let row : RelationshipRow :=
    { id := db.nextRelationshipId, projectId := projectId, sourceSymbolId := sourceId,
      targetSymbolId := targetId, relationshipType := rtype, relationshipData := dataJson }
  ({ db with
      relationships :=
        db.relationships.filter (fun r => !(decide (relKey r = relKey row))) ++ [row],
      nextRelationshipId := db.nextRelationshipId + 1 },
   row.id)

/-- `DatabaseManager.file_needs_update` (src/db.py:120): false when the
hash could not be computed, else true iff no symbol row of the project
carries this path with the current hash. -/
def fileNeedsUpdate (db : DB) (filePath currentHash projectId : String) : Bool :=
  if currentHash = "" then false
  else
    decide ((db.symbols.filter (fun s =>
      decide (s.filePath = filePath) && decide (s.fileHash = currentHash)
        && decide (s.projectId = projectId))).length = 0)

/-- `DatabaseManager.delete_file_symbols` (src/db.py:134): collects the
file's symbol ids, deletes those embedding rows, then deletes the
symbol rows.  No statement touches `relationships`, and the declared
cascade never fires (foreign-key enforcement is off on this
connection). -/
def deleteFileSymbols (db : DB) (filePath projectId : String) : DB :=
  let ids := (db.symbols.filter (fun s =>
    decide (s.filePath = filePath) && decide (s.projectId = projectId))).map SymbolRow.id
  { db with
    embeddings := db.embeddings.filter (fun e => !(decide (e.id ∈ ids))),
    symbols := db.symbols.filter (fun s =>
      !(decide (s.filePath = filePath) && decide (s.projectId = projectId))) }

/-- `DatabaseManager.delete_project` (src/db.py:156): collects the
project's symbol ids, deletes those embedding rows, then deletes the
symbol rows.  As in `delete_file_symbols`, `relationships` is never
named and the cascade never fires; no projects-table statement is
issued either. -/
def deleteProject (db : DB) (projectId : String) : DB :=
  let ids := (db.symbols.filter (fun s => decide (s.projectId = projectId))).map SymbolRow.id
  { db with
    embeddings := db.embeddings.filter (fun e => !(decide (e.id ∈ ids))),
    symbols := db.symbols.filter (fun s => !(decide (s.projectId = projectId))) }

/-! ### Name search (`search_by_name`, src/db.py:592)

The query is `name LIKE ?` with the unescaped pattern `f"%{name}%"`
(src/db.py:602), and the results are returned `ORDER BY name,
file_path`.  SQLite `LIKE` reads `%` as a wildcard for any character
sequence and `_` as a wildcard for exactly one character, and compares
the remaining characters case-insensitively for ASCII (non-ASCII
characters compare exactly).  Because the pattern is not escaped, a
`_` or `%` inside the searched text acts as a wildcard too. -/

/-- The SQLite `LIKE` matcher with explicit fuel: `p = '%'` matches any
sequence (consume the wildcard, or consume one text character and keep
it), `p = '_'` matches exactly one character, any other pattern
character matches itself.  Every recursive call shortens
pattern + text, so fuel `|pattern| + |text| + 1` never runs out; the
fuel only makes the textbook backtracking recursion structural. -/
def likeMatchFuel : Nat → List Char → List Char → Bool
  | 0, _, _ => false
  | _ + 1, [], s => s.isEmpty
  | fuel + 1, p :: ps, [] => decide (p = '%') && likeMatchFuel fuel ps []
  | fuel + 1, p :: ps, c :: cs =>
      if p = '%' then
        likeMatchFuel fuel ps (c :: cs) || likeMatchFuel fuel (p :: ps) cs
      else (decide (p = '_') || decide (p = c)) && likeMatchFuel fuel ps cs

/-- SQLite `pattern LIKE`-matches `text` (always-sufficient fuel). -/
def likeMatch (p s : List Char) : Bool :=
  likeMatchFuel (p.length + s.length + 1) p s

/-- `name LIKE '%pat%'` exactly as `search_by_name` issues it: the
unescaped pattern `%pat%` under SQLite `LIKE`, with ASCII case folding
applied to both sides (which fixes `%` and `_`, so the wildcards
survive the folding). -/
def nameLike (pat s : String) : Bool :=
  likeMatch ('%' :: (pat.data.map Char.toLower ++ ['%'])) (s.data.map Char.toLower)

/-- The `ORDER BY name, file_path` rank as a total preorder. -/
def symLe (a b : SymbolRow) : Bool :=
  if a.name = b.name then decide (¬ b.filePath < a.filePath)
  else decide (a.name < b.name)

/-- Insert into a `le`-sorted list, before the first element it ranks no
higher than — the stable insertion step. -/
def insOrd (le : α → α → Bool) (a : α) : List α → List α
  | [] => [a]
  | b :: l => if le a b then a :: b :: l else b :: insOrd le a l

/-- Stable insertion sort by the rank `le`, modelling SQL `ORDER BY`. -/
def sortOrd (le : α → α → Bool) : List α → List α
  | [] => []
  | b :: l => insOrd le b (sortOrd le l)

/-- `DatabaseManager.search_by_name` (src/db.py:592): the unescaped
`LIKE '%name%'` match on the name, optional language and project
filters, ordered by name then file path. -/
def searchByName (db : DB) (name : String) (language projectId : Option String) :
    List SymbolRow :=
  sortOrd symLe (db.symbols.filter (fun s =>
    nameLike name s.name
      && (match language with
          | some lg => decide (s.language = lg)
          | none => true)
      && (match projectId with
          | some pid => decide (s.projectId = pid)
          | none => true)))

/-! ### Semantic search (`search_semantic`, src/db.py:624)

Result rows are modelled as the column/value lists `sqlite3.Row` exposes
(`dict(row)` in the tool layer), because claim C10 turns on which column
names the store emits.  The sqlite-vec backend is abstracted as the id
list its `embedding match ? LIMIT top_k` subquery returns, `none`
standing for the `sqlite3.OperationalError` the source catches. -/

/-- A SQL value: integer, text, or real. -/
inductive SqlVal where
  | intV : Int → SqlVal
  | textV : String → SqlVal
  | realV : Float → SqlVal

/-- A result row: column names with values. -/
abbrev SqlRow := List (String × SqlVal)

/-- `SELECT symbols.*, d as distance` for one symbol row. -/
def symbolRowDict (s : SymbolRow) (distance : Float) : SqlRow :=
  [("id", .intV (Int.ofNat s.id)), ("project_id", .textV s.projectId),
   ("language", .textV s.language), ("symbol_type", .textV s.symbolType),
   ("name", .textV s.name), ("file_path", .textV s.filePath),
   ("line_start", .intV (Int.ofNat s.lineStart)), ("line_end", .intV (Int.ofNat s.lineEnd)),
   ("code_snippet", .textV s.codeSnippet), ("file_hash", .textV s.fileHash),
   ("distance", .realV distance)]

/-- The value of a column, if the row has it. -/
def rowLookup (row : SqlRow) (key : String) : Option SqlVal :=
  (row.find? (fun kv => decide (kv.1 = key))).map (fun kv => kv.2)

/-- Python `row.get(key, dflt)`. -/
def rowGetD (row : SqlRow) (key : String) (dflt : SqlVal) : SqlVal :=
  (rowLookup row key).getD dflt

/-- `DatabaseManager.search_semantic` (src/db.py:624).  `vec0` says
whether the `symbol_embeddings` table is the vec0 virtual table; `knn`
is the backend's response to the KNN subquery (`none` = the query
raised, which the source catches and degrades).  Both the KNN path and
the fallback label every row with the constant distance `0.0`. -/
def searchSemantic (db : DB) (vec0 : Bool) (knn : Option (List Nat)) (topK : Nat)
    (projectId : Option String) : List SqlRow :=
  let fallback :=
    ((db.symbols.filter (fun s =>
        match projectId with
        | some pid => decide (s.projectId = pid)
        | none => true)).take topK).map (fun s => symbolRowDict s 0.0)
  if vec0 then
    match knn with
    | some ids =>
        (((ids.take topK).filterMap (fun i =>
            db.symbols.find? (fun s => decide (s.id = i)))).filter (fun s =>
          match projectId with
          | some pid => decide (s.projectId = pid)
          | none => true)).map (fun s => symbolRowDict s 0.0)
    | none => fallback
  else fallback

/-- The scores the `search_symbol_semantic` tool (src/main.py:760)
reports: for each store row it reads `result.get("score", 0.0)`. -/
def searchSymbolSemanticScores (db : DB) (vec0 : Bool) (knn : Option (List Nat))
    (topK : Nat) (projectId : Option String) : List SqlVal :=
  (searchSemantic db vec0 knn topK projectId).map (fun row =>
    rowGetD row "score" (.realV 0.0))

/-! ## Project records (spec-modelled) and the index operation -/

/-- Modelled from the spec: `DatabaseManager.get_project_info` is called
at src/main.py:458 but is not defined in any file of the repository.
Per §3 there is one Project row per `project_id`; the lookup returns it
when present. -/
def getProjectInfo (db : DB) (projectId : String) : Option ProjectRow :=
  db.projects.find? (fun p => decide (p.projectId = projectId))

/-- Modelled from the spec: `DatabaseManager.create_or_update_project` is
called at src/main.py:470 but is not defined in any file of the
repository.  Per §3, "Created/updated at the start of every index
operation; one row per project_id" — an upsert keyed by `project_id`. -/
def createOrUpdateProject (db : DB) (projectId path name : String) (isGitRepo : Bool)
    (lastCommitHash lastBranch : Option String) : DB :=
  { db with
    projects :=
      db.projects.filter (fun p => !(decide (p.projectId = projectId)))
        ++ [{ projectId := projectId, path := path, name := name, isGitRepo := isGitRepo,
              lastCommitHash := lastCommitHash, lastBranch := lastBranch }] }

/-- Modelled from the spec: `DatabaseManager.update_project_scan_info` is
called at src/main.py:645 and src/main.py:892 but is not defined in any
file of the repository.  Per §4.5 it records the last scan commit and
branch (or clears them for `force_full_rescan`). -/
def updateProjectScanInfo (db : DB) (projectId : String) (commit branch : Option String) :
    DB :=
  { db with
    projects := db.projects.map (fun p =>
      if p.projectId = projectId then
        { p with lastCommitHash := commit, lastBranch := branch }
      else p) }

/-- What `index_codebase` observes of the file system and git for the
requested path: whether the path exists and is a directory, the
directory's base name, the `rglob("*")` walk, per-path `is_file`,
per-path language detection and content hashes, and the git view. -/
inductive PathStatus where
  | missing : PathStatus
  | file : PathStatus
  | dir : PathStatus
deriving DecidableEq

/-- The `GitManager` collaborator as `index_codebase` consumes it:
`is_git_repo`, HEAD commit and branch, and `get_all_changed_files`
(diff since a commit ∪ untracked ∪ modified). -/
structure GitView where
  isRepo : Bool
  headCommit : Option String
  headBranch : Option String
  changedSince : String → List String

/-- The environment of one `index_codebase` call. -/
structure ScanEnv where
  pathStatus : PathStatus
  dirName : String
  git : GitView
  rglobEntries : List String
  isFile : String → Bool
  detectLang : String → Option String
  fileHash : String → String

/-- The outcome of the setup phase of `index_codebase`: a structured
invalid-path result, or the store after the project upsert together
with the planned file list. -/
inductive IndexStartResult where
  | invalidPath (msg : String) : IndexStartResult
  | proceeded (db : DB) (filesToProcess : List String) : IndexStartResult

/-- `index_codebase` (src/main.py:403) from the path checks through the
project-record upsert and the scan planning (src/main.py:418-511):
missing or non-directory paths yield structured error results; otherwise
the project row is created or updated with the current git state, and
the file list is planned — incremental (git diff, hashes not consulted)
when the project is a git repo with a recorded prior commit different
from HEAD, else a full scan filtered by `file_needs_update`. -/
def indexStart (env : ScanEnv) (db : DB) (path projectId : String) : IndexStartResult :=
  match env.pathStatus with
  | .missing => .invalidPath "Path does not exist"
  | .file => .invalidPath "Path is not a directory"
  | .dir =>
    let isGitRepo := env.git.isRepo
    let lastCommitHash := (getProjectInfo db projectId).bind ProjectRow.lastCommitHash
    let currentCommitHash := if isGitRepo then env.git.headCommit else none
    let currentBranch := if isGitRepo then env.git.headBranch else none
    let db1 := createOrUpdateProject db projectId path env.dirName isGitRepo
      currentCommitHash currentBranch
    let fullScan := env.rglobEntries.filter (fun f =>
      env.isFile f && (env.detectLang f).isSome
        && fileNeedsUpdate db1 f (env.fileHash f) projectId)
    let files :=
      match lastCommitHash with
      | some lc =>
          if isGitRepo && !(decide (currentCommitHash = some lc)) then
            (env.git.changedSince lc).filter (fun f =>
              env.isFile f && (env.detectLang f).isSome)
          else fullScan
      | none => fullScan
    .proceeded db1 files

/-- An opaque stand-in for `json.dumps(rel)` — the payload stored with a
resolved relationship (its content matters to no claim). -/
def relJson (r : RawRel) : String :=
  r.rtype ++ " " ++ r.target ++ " " ++ r.targetType ++ " " ++ toString r.line

/-- The per-relationship resolution step of `index_codebase`
(src/main.py:613-623): look the recorded target text up with
`search_by_name` scoped to the project; if the result is non-empty,
insert an edge to the first row, else do nothing (the miss is silent —
no insert, no error). -/
def resolveAndInsertRelationship (db : DB) (sourceId : Nat) (r : RawRel)
    (projectId : String) : DB :=
  match searchByName db r.target none (some projectId) with
  | [] => db
  | t :: _ => (insertRelationship db sourceId t.id r.rtype projectId (some (relJson r))).1

/-! ## The embedding generator (`EmbeddingManager`, src/embeddings.py)

The SpaCy model is abstracted as a per-text function returning the raw
vector `doc.vector.tolist()` or `none` when processing that text raises
(the source catches the exception).  `nlp = none` models the unloaded
state, in which the source raises `RuntimeError`. -/

/-- The external SpaCy model: per text, the raw vector or a failure. -/
abbrev NlpModel := String → Option (List Float)

/-- Pad with zeros or truncate to exactly 300 entries
(src/embeddings.py:49 and 153). -/
def fitTo300 (v : List Float) : List Float :=
  if v.length = 300 then v
  else if v.length < 300 then v ++ List.replicate (300 - v.length) 0.0
  else v.take 300

/-- The zero-vector fallback `[0.0] * 300`. -/
def zeroVec300 : List Float :=
  List.replicate 300 0.0

/-- `str.split()` then `' '.join(...)`: whitespace runs collapsed to
single spaces, ends trimmed. -/
def joinWords : List (List Char) → List Char
  | [] => []
  | [w] => w
  | w :: ws => w ++ ' ' :: joinWords ws

/-- Split at every whitespace character (empty segments included). -/
def splitWs : List Char → List (List Char)
  | [] => [[]]
  | c :: cs =>
      if isPySpace c then [] :: splitWs cs
      else
        match splitWs cs with
        | [] => [[c]]
        | l :: ls => (c :: l) :: ls

/-- `EmbeddingManager._clean_code_text` (src/embeddings.py:83): collapse
whitespace, then truncate to 1000 characters plus an ellipsis. -/
def cleanCodeText (text : String) : String :=
  let joined := String.mk (joinWords ((splitWs text.data).filter (fun w => !w.isEmpty)))
  if joined.length > 1000 then String.mk (joined.data.take 1000) ++ "..." else joined

/-- `EmbeddingManager.get_embedding` (src/embeddings.py:30): raises when
the model is unloaded; otherwise fits the vector to 300 entries, and on
a per-text exception returns the zero vector instead of raising. -/
def getEmbedding (nlp : Option NlpModel) (text : String) : Except String (List Float) :=
  match nlp with
  | none => .error "SpaCy model not loaded"
  | some m =>
      match m text with
      | some v => .ok (fitTo300 v)
      | none => .ok zeroVec300

/-- `EmbeddingManager._process_batch_chunk` (src/embeddings.py:139):
clean the texts, run them through `nlp.pipe` and fit each vector to 300
entries; an exception anywhere in the chunk is caught and the whole
chunk becomes zero vectors, one per text. -/
def processBatchChunk (m : NlpModel) (texts : List String) : List (List Float) :=
  let cleaned := texts.map cleanCodeText
  if cleaned.all (fun t => (m t).isSome) then
    cleaned.map (fun t => fitTo300 ((m t).getD []))
  else List.replicate texts.length zeroVec300

/-- The `range(0, len(texts), n)` slices `texts[i:i+n]`. -/
def chunksOf (n : Nat) (l : List α) : List (List α) :=
  if l.isEmpty || n = 0 then []
  else l.take n :: chunksOf n (l.drop n)
termination_by l.length
decreasing_by
  simp only [Bool.or_eq_true, List.isEmpty_iff, decide_eq_true_eq, not_or] at *
  rename_i h
  have hn : 0 < n := Nat.pos_of_ne_zero h.2
  have hl : 0 < l.length := List.length_pos.mpr h.1
  simp only [List.length_drop]
  omega

/-- `EmbeddingManager.batch_get_embeddings` (src/embeddings.py:107):
raises when the model is unloaded; more than 50 texts are processed in
chunks of 50 whose results are concatenated, else the single chunk is
processed directly.  (The outer exception handler of the source is
unreachable: the chunk processor catches its own exceptions.) -/
def batchGetEmbeddings (nlp : Option NlpModel) (texts : List String) :
    Except String (List (List Float)) :=
  match nlp with
  | none => .error "SpaCy model not loaded"
  | some m =>
      if texts.length > 50 then
        .ok ((chunksOf 50 texts).flatMap (fun chunk => processBatchChunk m chunk))
      else .ok (processBatchChunk m texts)

/-! ## Store invariants and concrete fixtures -/

/-- The symbols-table uniqueness invariant: no two rows share the
`(project_id, language, name, file_path, line_start)` key. -/
def SymbolsUnique (l : List SymbolRow) : Prop :=
  (l.map symKey).Nodup

/-- Fixture: a function symbol row of project `p`, file `a.py`. -/
def symFoo : SymbolRow :=
  { id := 1, projectId := "p", language := "python", symbolType := "function",
    name := "foo", filePath := "a.py", lineStart := 1, lineEnd := 2,
    codeSnippet := "def foo():", fileHash := "h1" }

/-- Fixture: a second function symbol row of project `p`, file `a.py`. -/
def symBar : SymbolRow :=
  { id := 2, projectId := "p", language := "python", symbolType := "function",
    name := "bar", filePath := "a.py", lineStart := 4, lineEnd := 5,
    codeSnippet := "def bar():", fileHash := "h1" }

/-- Fixture: the `calls` edge `bar → foo`. -/
def relBarFoo : RelationshipRow :=
  { id := 1, projectId := "p", sourceSymbolId := 2, targetSymbolId := 1,
    relationshipType := "calls", relationshipData := none }

/-- Fixture: the project row for `p`. -/
def prjP : ProjectRow :=
  { projectId := "p", path := "/repo", name := "repo", isGitRepo := false,
    lastCommitHash := none, lastBranch := none }

/-- Fixture: a store holding one fully indexed project `p` — two symbols
in `a.py`, one relationship, their embeddings and the project record. -/
def dbOrphans : DB :=
  { symbols := [symFoo, symBar], relationships := [relBarFoo],
    embeddings := [⟨1, []⟩, ⟨2, []⟩], projects := [prjP],
    nextSymbolId := 3, nextRelationshipId := 2 }

/-- Fixture: a symbol named `handler` in project `p`. -/
def symHandler : SymbolRow :=
  { id := 1, projectId := "p", language := "python", symbolType := "function",
    name := "handler", filePath := "b.py", lineStart := 1, lineEnd := 4,
    codeSnippet := "def handler():", fileHash := "h2" }

/-- Fixture: a symbol named `foobar` — not named `foo`, but containing
it — in project `p`. -/
def symFoobar : SymbolRow :=
  { id := 2, projectId := "p", language := "python", symbolType := "function",
    name := "foobar", filePath := "b.py", lineStart := 6, lineEnd := 7,
    codeSnippet := "def foobar():", fileHash := "h2" }

/-- Fixture: a store whose project `p` has no symbol named exactly
`foo`, only `foobar`. -/
def dbSub : DB :=
  { symbols := [symHandler, symFoobar], relationships := [], embeddings := [],
    projects := [], nextSymbolId := 3, nextRelationshipId := 1 }

/-- Fixture: a pending relationship whose recorded target text is `foo`. -/
def relFooCall : RawRel :=
  ⟨"calls", "foo", "function", 3⟩

/-- Fixture: an empty store. -/
def dbEmpty : DB :=
  { symbols := [], relationships := [], embeddings := [], projects := [],
    nextSymbolId := 1, nextRelationshipId := 1 }

/-- Fixture: a parsed symbol for upsert examples. -/
def parsedFoo : ParsedSymbol :=
  { name := "foo", symbolType := "function", lineStart := 1, lineEnd := 2,
    codeSnippet := "def foo():", filePath := "a.py", language := "python" }

/-- Fixture: an index-operation environment seeing an existing directory
that is not a git repository and holds one recognized file. -/
def envDir : ScanEnv :=
  { pathStatus := .dir, dirName := "repo",
    git := { isRepo := false, headCommit := none, headBranch := none,
             changedSince := fun _ => [] },
    rglobEntries := ["/repo/a.py"],
    isFile := fun _ => true,
    detectLang := fun _ => some "python",
    fileHash := fun _ => "h1" }

/-! # Theorems -/

/-! ## C2 / C3 — deletion leaves orphans (code-level evaluation) -/

/-- C2: evaluation of `delete_project` at a concrete fully indexed
project.  The symbol and embedding rows of project `p` are gone, but its
relationship row and its Project record remain — the post-condition
"all four counts are zero" fails on the relationship and project
counts, because no SQL statement of `delete_project` names those tables
and the declared cascade never fires on a connection without
foreign-key enforcement. -/
theorem deleteProject_leaves_orphan_rows :
    ((deleteProject dbOrphans "p").symbols.filter
        (fun s => decide (s.projectId = "p"))).length = 0
    ∧ ((deleteProject dbOrphans "p").embeddings.filter
        (fun e => decide (e.id = 1) || decide (e.id = 2))).length = 0
    ∧ ((deleteProject dbOrphans "p").relationships.filter
        (fun r => decide (r.projectId = "p"))).length = 1
    ∧ ((deleteProject dbOrphans "p").projects.filter
        (fun pr => decide (pr.projectId = "p"))).length = 1 := by
  decide

/-- C3: evaluation of the full-scan replace protocol at a concrete
store.  The hash-match short-circuit holds (`file_needs_update` is false
for the unchanged file, so it is not reprocessed), but when a changed
file is reprocessed, `delete_file_symbols` removes only the file's
symbol and embedding rows: the relationship row built from the old
version of `a.py` survives, so the replacement is not leftover-free. -/
theorem deleteFileSymbols_leaves_stale_relationships :
    fileNeedsUpdate dbOrphans "a.py" "h1" "p" = false
    ∧ fileNeedsUpdate dbOrphans "a.py" "h9" "p" = true
    ∧ ((deleteFileSymbols dbOrphans "a.py" "p").symbols.filter
        (fun s => decide (s.filePath = "a.py") && decide (s.projectId = "p"))).length = 0
    ∧ ((deleteFileSymbols dbOrphans "a.py" "p").embeddings.filter
        (fun e => decide (e.id = 1) || decide (e.id = 2))).length = 0
    ∧ (deleteFileSymbols dbOrphans "a.py" "p").relationships = [relBarFoo] := by
  decide

/-! ## C6 / C10 — semantic search -/

/-- Every row `search_semantic` returns, on any path, is a symbol row
labelled with the constant distance `0.0`. -/
theorem mem_searchSemantic (db : DB) (vec0 : Bool) (knn : Option (List Nat))
    (topK : Nat) (pid : Option String) (row : SqlRow)
    (h : row ∈ searchSemantic db vec0 knn topK pid) :
    ∃ s, row = symbolRowDict s 0.0 := by
  unfold searchSemantic at h
  by_cases hv : vec0 = true
  · cases knn with
    | none =>
        simp only [hv, if_true] at h
        obtain ⟨s, _, hs⟩ := List.mem_map.mp h
        exact ⟨s, hs.symm⟩
    | some ids =>
        simp only [hv, if_true] at h
        obtain ⟨s, _, hs⟩ := List.mem_map.mp h
        exact ⟨s, hs.symm⟩
  · simp only [Bool.not_eq_true] at hv
    simp only [hv, Bool.false_eq_true, if_false] at h
    obtain ⟨s, _, hs⟩ := List.mem_map.mp h
    exact ⟨s, hs.symm⟩

/-- C10: on every path of semantic search — the vec0 KNN path included —
the store labels each result row with the constant `distance` 0.0 and
never emits a `score` column, so the tool layer's
`result.get("score", 0.0)` reports 0.0 for every result. -/
theorem searchSemantic_reported_score_always_zero (db : DB) (vec0 : Bool)
    (knn : Option (List Nat)) (topK : Nat) (pid : Option String) :
    (∀ row ∈ searchSemantic db vec0 knn topK pid,
        rowLookup row "distance" = some (SqlVal.realV 0.0)
          ∧ rowLookup row "score" = none)
    ∧ ∀ v ∈ searchSymbolSemanticScores db vec0 knn topK pid, v = SqlVal.realV 0.0 := by
  constructor
  · intro row hrow
    obtain ⟨s, rfl⟩ := mem_searchSemantic db vec0 knn topK pid row hrow
    exact ⟨rfl, rfl⟩
  · intro v hv
    obtain ⟨row, hrow, hveq⟩ := List.mem_map.mp hv
    obtain ⟨s, rfl⟩ := mem_searchSemantic db vec0 knn topK pid row hrow
    exact hveq.symm

/-- C6: when the vec0 index is absent or the backend KNN query errors,
`search_semantic` degrades to the fallback query: it returns at most
`top_k` symbol rows, each labelled with the placeholder distance 0.0
(the model is total — the source catches the backend exception, so the
call returns instead of raising). -/
theorem searchSemantic_fallback_bounded (db : DB) (knn : Option (List Nat))
    (topK : Nat) (pid : Option String) (vec0 : Bool)
    (h : vec0 = false ∨ knn = none) :
    (searchSemantic db vec0 knn topK pid).length ≤ topK
    ∧ ∀ row ∈ searchSemantic db vec0 knn topK pid,
        rowLookup row "distance" = some (SqlVal.realV 0.0) := by
  have hfb : searchSemantic db vec0 knn topK pid =
      ((db.symbols.filter (fun s =>
          match pid with
          | some p => decide (s.projectId = p)
          | none => true)).take topK).map (fun s => symbolRowDict s 0.0) := by
    unfold searchSemantic
    rcases h with h | h
    · simp [h]
    · subst h
      by_cases hv : vec0 = true <;> simp [hv]
  constructor
  · rw [hfb, List.length_map]
    exact le_trans (List.length_take_le _ _) (le_refl _)
  · intro row hrow
    obtain ⟨s, rfl⟩ := mem_searchSemantic db vec0 knn topK pid row hrow
    rfl

/-- C6 witness: at a concrete store with two symbols and `top_k = 1`,
the degraded search returns at most one row, each with distance 0.0. -/
theorem searchSemantic_fallback_bounded_witness :
    (searchSemantic dbOrphans false none 1 none).length ≤ 1
    ∧ ∀ row ∈ searchSemantic dbOrphans false none 1 none,
        rowLookup row "distance" = some (SqlVal.realV 0.0) :=
  searchSemantic_fallback_bounded dbOrphans none 1 none false (Or.inl rfl)

/-! ## C4 — symbols-table uniqueness and upsert -/

/-- Filtering preserves the symbols uniqueness invariant. -/
theorem symbolsUnique_filter (l : List SymbolRow) (p : SymbolRow → Bool)
    (h : SymbolsUnique l) : SymbolsUnique (l.filter p) :=
  List.Nodup.sublist (List.Sublist.map symKey (List.filter_sublist l)) h

/-- C4: the store's `INSERT OR REPLACE` keeps the uniqueness invariant —
inserting a symbol whose key already exists replaces the prior row (the
post-state has exactly one row with that key) rather than adding a
second row or failing, and the delete operations preserve the invariant
as well. -/
theorem insertSymbol_upsert_unique (db : DB) (p : ParsedSymbol)
    (fh pid fp dpid : String) (h : SymbolsUnique db.symbols) :
    SymbolsUnique (insertSymbol db p fh pid).1.symbols
    ∧ ((insertSymbol db p fh pid).1.symbols.filter
        (fun r => decide (symKey r = symKey (mkSymbolRow db p fh pid)))).length = 1
    ∧ SymbolsUnique (deleteFileSymbols db fp dpid).symbols
    ∧ SymbolsUnique (deleteProject db dpid).symbols := by
  refine ⟨?_, ?_, symbolsUnique_filter _ _ h, symbolsUnique_filter _ _ h⟩
  · show ((db.symbols.filter _ ++ [mkSymbolRow db p fh pid]).map symKey).Nodup
    rw [List.map_append]
    rw [List.nodup_append]
    refine ⟨symbolsUnique_filter _ _ h, by simp, ?_⟩
    intro x hx hx2
    simp only [List.map_cons, List.map_nil, List.mem_singleton] at hx2
    obtain ⟨r, hr, hxr⟩ := List.mem_map.mp hx
    obtain ⟨_, hrp⟩ := List.mem_filter.mp hr
    simp only [Bool.not_eq_eq_eq_not, Bool.not_true, decide_eq_false_iff_not] at hrp
    exact hrp (hxr.trans hx2 ▸ rfl)
  · show ((db.symbols.filter _ ++ [mkSymbolRow db p fh pid]).filter _).length = 1
    rw [List.filter_append]
    have h1 : (db.symbols.filter
        (fun r => !(decide (symKey r = symKey (mkSymbolRow db p fh pid))))).filter
        (fun r => decide (symKey r = symKey (mkSymbolRow db p fh pid))) = [] := by
      rw [List.filter_eq_nil_iff]
      intro r hr
      obtain ⟨_, hrp⟩ := List.mem_filter.mp hr
      simp only [Bool.not_eq_eq_eq_not, Bool.not_true, decide_eq_false_iff_not] at hrp
      simp only [decide_eq_true_eq]
      exact hrp
    rw [h1]
    simp

/-- C4 witness: inserting a symbol whose key is already present in a
concrete unique store keeps uniqueness and leaves exactly one row with
that key. -/
theorem insertSymbol_upsert_unique_witness :
    SymbolsUnique (insertSymbol dbOrphans parsedFoo "h9" "p").1.symbols
    ∧ ((insertSymbol dbOrphans parsedFoo "h9" "p").1.symbols.filter
        (fun r => decide (symKey r = symKey (mkSymbolRow dbOrphans parsedFoo "h9" "p")))).length = 1
    ∧ SymbolsUnique (deleteFileSymbols dbOrphans "a.py" "p").symbols
    ∧ SymbolsUnique (deleteProject dbOrphans "p").symbols :=
  insertSymbol_upsert_unique dbOrphans parsedFoo "h9" "p" "a.py" "p"
    (by unfold SymbolsUnique; decide)

/-! ## C1 — the index operation creates or updates the project record -/

/-- C1: on a path that exists and is a directory, `index_codebase`
upserts the Project record for the supplied project id before file
processing — the post-upsert store has exactly one project row for that
id, holding the path, directory name, version-control status and the
current scan commit/branch — and the operation proceeds to the planning
of the file list. -/
theorem indexStart_creates_project_row (env : ScanEnv) (db : DB)
    (path pid : String) (h : env.pathStatus = .dir) :
    ∃ db1 files, indexStart env db path pid = .proceeded db1 files
      ∧ db1.projects.filter (fun pr => decide (pr.projectId = pid)) =
        [{ projectId := pid, path := path, name := env.dirName,
           isGitRepo := env.git.isRepo,
           lastCommitHash := if env.git.isRepo then env.git.headCommit else none,
           lastBranch := if env.git.isRepo then env.git.headBranch else none }] := by
  obtain ⟨ps, dn, g, rg, isf, dl, fhsh⟩ := env
  simp only at h
  subst h
  refine ⟨_, _, rfl, ?_⟩
  show ((db.projects.filter _ ++ [_]).filter _) = _
  rw [List.filter_append]
  have h1 : (db.projects.filter (fun pr => !(decide (pr.projectId = pid)))).filter
      (fun pr => decide (pr.projectId = pid)) = [] := by
    rw [List.filter_eq_nil_iff]
    intro pr hpr
    obtain ⟨_, hp⟩ := List.mem_filter.mp hpr
    simp only [Bool.not_eq_eq_eq_not, Bool.not_true, decide_eq_false_iff_not] at hp
    simp only [decide_eq_true_eq]
    exact hp
  rw [h1]
  simp

/-- C1 witness: a concrete index call on an existing directory for a
fresh project id proceeds past the project upsert with exactly the
expected project record. -/
theorem indexStart_creates_project_row_witness :
    ∃ db1 files, indexStart envDir dbEmpty "/repo" "p" = .proceeded db1 files
      ∧ db1.projects.filter (fun pr => decide (pr.projectId = "p")) =
        [{ projectId := "p", path := "/repo", name := envDir.dirName,
           isGitRepo := envDir.git.isRepo,
           lastCommitHash := if envDir.git.isRepo then envDir.git.headCommit else none,
           lastBranch := if envDir.git.isRepo then envDir.git.headBranch else none }] :=
  indexStart_creates_project_row envDir dbEmpty "/repo" "p" rfl

/-! ## C5 — relationship target resolution -/

/-- C5 counterexample: project `p` has no symbol named exactly `foo`,
yet resolving a pending relationship whose recorded target text is
`foo` inserts an edge — to `foobar` (id 2), found by the
`LIKE '%foo%'` pattern lookup — instead of dropping the relationship. -/
theorem resolveRelationship_inserts_without_exact_name :
    dbSub.symbols.all (fun s => decide (s.name ≠ "foo")) = true
    ∧ (resolveAndInsertRelationship dbSub 1 relFooCall "p").relationships.length = 1
    ∧ (resolveAndInsertRelationship dbSub 1 relFooCall "p").relationships.map
        RelationshipRow.targetSymbolId = [2] := by
  decide

/-- `insOrd` inserts its element: the result is a permutation of the
element consed onto the list. -/
theorem insOrd_perm (le : α → α → Bool) (a : α) (l : List α) :
    (insOrd le a l).Perm (a :: l) := by
  induction l with
  | nil => simp [insOrd]
  | cons b l ih =>
      by_cases h : le a b = true
      · simp [insOrd, h]
      · simp only [insOrd, h, if_false]
        exact (ih.cons b).trans (List.Perm.swap a b l)

/-- `sortOrd` permutes its input. -/
theorem sortOrd_perm (le : α → α → Bool) (l : List α) :
    (sortOrd le l).Perm l := by
  induction l with
  | nil => simp [sortOrd]
  | cons b l ih => exact (insOrd_perm le b (sortOrd le l)).trans (ih.cons b)

/-- Stable insertion into a `le`-pairwise list keeps it pairwise, for a
total transitive rank. -/
theorem insOrd_pairwise (le : α → α → Bool)
    (htot : ∀ a b, le a b = true ∨ le b a = true)
    (htrans : ∀ a b c, le a b = true → le b c = true → le a c = true)
    (a : α) (l : List α) (hl : l.Pairwise (fun x y => le x y = true)) :
    (insOrd le a l).Pairwise (fun x y => le x y = true) := by
  induction l with
  | nil => simp [insOrd]
  | cons b l ih =>
      rw [List.pairwise_cons] at hl
      by_cases h : le a b = true
      · simp only [insOrd]
        rw [if_pos h, List.pairwise_cons]
        refine ⟨?_, List.pairwise_cons.mpr hl⟩
        intro x hx
        rcases List.mem_cons.mp hx with rfl | hx
        · exact h
        · exact htrans a b x h (hl.1 x hx)
      · simp only [insOrd]
        rw [if_neg h, List.pairwise_cons]
        refine ⟨?_, ih hl.2⟩
        intro x hx
        rcases List.mem_cons.mp ((insOrd_perm le a l).mem_iff.mp hx) with rfl | h2
        · exact (htot x b).resolve_left h
        · exact hl.1 x h2

/-- `sortOrd` yields a `le`-pairwise list, for a total transitive rank. -/
theorem sortOrd_pairwise (le : α → α → Bool)
    (htot : ∀ a b, le a b = true ∨ le b a = true)
    (htrans : ∀ a b c, le a b = true → le b c = true → le a c = true)
    (l : List α) :
    (sortOrd le l).Pairwise (fun x y => le x y = true) := by
  induction l with
  | nil => simp [sortOrd]
  | cons b l ih => exact insOrd_pairwise le htot htrans b (sortOrd le l) ih

/-- The `ORDER BY name, file_path` rank is reflexive. -/
theorem symLe_refl (a : SymbolRow) : symLe a a = true := by
  unfold symLe
  rw [if_pos rfl, decide_eq_true_eq]
  exact lt_irrefl _

/-- The `ORDER BY name, file_path` rank is total. -/
theorem symLe_total (a b : SymbolRow) : symLe a b = true ∨ symLe b a = true := by
  unfold symLe
  by_cases h : a.name = b.name
  · rw [if_pos h, if_pos h.symm, decide_eq_true_eq, decide_eq_true_eq]
    rcases le_total a.filePath b.filePath with hf | hf
    · exact Or.inl (not_lt.mpr hf)
    · exact Or.inr (not_lt.mpr hf)
  · rw [if_neg h, if_neg (fun hh => h hh.symm), decide_eq_true_eq, decide_eq_true_eq]
    rcases lt_or_gt_of_ne h with hh | hh
    · exact Or.inl hh
    · exact Or.inr hh

/-- The `ORDER BY name, file_path` rank is transitive. -/
theorem symLe_trans (a b c : SymbolRow)
    (hab : symLe a b = true) (hbc : symLe b c = true) : symLe a c = true := by
  unfold symLe at hab hbc ⊢
  by_cases h1 : a.name = b.name <;> by_cases h2 : b.name = c.name
  · rw [if_pos h1, decide_eq_true_eq] at hab
    rw [if_pos h2, decide_eq_true_eq] at hbc
    rw [if_pos (h1.trans h2), decide_eq_true_eq]
    exact not_lt.mpr (le_trans (not_lt.mp hab) (not_lt.mp hbc))
  · rw [if_neg h2, decide_eq_true_eq] at hbc
    have h3 : ¬ a.name = c.name := fun hh => h2 (h1.symm.trans hh)
    rw [if_neg h3, decide_eq_true_eq, h1]
    exact hbc
  · rw [if_neg h1, decide_eq_true_eq] at hab
    have h4 : a.name < c.name := h2 ▸ hab
    rw [if_neg (ne_of_lt h4), decide_eq_true_eq]
    exact h4
  · rw [if_neg h1, decide_eq_true_eq] at hab
    rw [if_neg h2, decide_eq_true_eq] at hbc
    have h4 : a.name < c.name := lt_trans hab hbc
    rw [if_neg (ne_of_lt h4), decide_eq_true_eq]
    exact h4

/-- C5 (amended): the resolution step resolves the target by the
unescaped case-insensitive `LIKE '%target%'` pattern match over the
project's symbols (so `_` in the recorded target text matches any one
character and `%` any sequence) — the result set is exactly the project
rows whose name matches that pattern, the chosen row is first in
`(name, file_path)` order among them, and only when no name matches the
pattern is the relationship dropped silently. -/
theorem resolveRelationship_like_first_match (db : DB) (sourceId : Nat)
    (r : RawRel) (pid : String) :
    ((∀ s ∈ db.symbols, s.projectId = pid → nameLike r.target s.name = false) →
        resolveAndInsertRelationship db sourceId r pid = db)
    ∧ (∀ t rest, searchByName db r.target none (some pid) = t :: rest →
        resolveAndInsertRelationship db sourceId r pid =
          (insertRelationship db sourceId t.id r.rtype pid (some (relJson r))).1
        ∧ nameLike r.target t.name = true ∧ t.projectId = pid
        ∧ ∀ u ∈ searchByName db r.target none (some pid), symLe t u = true)
    ∧ (∀ s, s ∈ searchByName db r.target none (some pid) ↔
        s ∈ db.symbols ∧ s.projectId = pid ∧ nameLike r.target s.name = true) := by
  have hsbn : searchByName db r.target none (some pid) =
      sortOrd symLe (db.symbols.filter (fun s =>
        nameLike r.target s.name && decide (s.projectId = pid))) := by
    simp only [searchByName, Bool.and_true]
  have hmem : ∀ s, s ∈ searchByName db r.target none (some pid) ↔
      s ∈ db.symbols ∧ s.projectId = pid ∧ nameLike r.target s.name = true := by
    intro s
    rw [hsbn, (sortOrd_perm symLe _).mem_iff, List.mem_filter, Bool.and_eq_true,
      decide_eq_true_eq]
    tauto
  refine ⟨?_, ?_, hmem⟩
  · intro hnone
    have hempty : searchByName db r.target none (some pid) = [] := by
      rcases hsb : searchByName db r.target none (some pid) with _ | ⟨t, rest⟩
      · rfl
      · have ht := (hmem t).mp (hsb ▸ List.mem_cons_self t rest)
        have hfalse := hnone t ht.1 ht.2.1
        rw [ht.2.2] at hfalse
        exact absurd hfalse (by decide)
    unfold resolveAndInsertRelationship
    rw [hempty]
  · intro t rest hsb
    have hsorted := sortOrd_pairwise symLe symLe_total symLe_trans
      (db.symbols.filter (fun s =>
        nameLike r.target s.name && decide (s.projectId = pid)))
    rw [← hsbn, hsb] at hsorted
    have ht := (hmem t).mp (hsb ▸ List.mem_cons_self t rest)
    refine ⟨?_, ht.2.2, ht.2.1, ?_⟩
    · unfold resolveAndInsertRelationship
      rw [hsb]
    · intro u hu
      rw [hsb] at hu
      rcases List.mem_cons.mp hu with rfl | hu
      · exact symLe_refl u
      · exact (List.pairwise_cons.mp hsorted).1 u hu

/-! ## C9 — embedding generator dimensions and fallbacks -/

/-- Index access within bounds. -/
theorem get_some_lt (l : List α) (i : Nat) (a : α) (h : l.get? i = some a) :
    i < l.length := by
  induction l generalizing i with
  | nil => simp [List.get?] at h
  | cons b l ih =>
      cases i with
      | zero => simp
      | succ j => exact Nat.succ_lt_succ (ih j h)

/-- Indexed elements are members. -/
theorem mem_of_get_some (l : List α) (i : Nat) (a : α) (h : l.get? i = some a) :
    a ∈ l := by
  induction l generalizing i with
  | nil => simp [List.get?] at h
  | cons b l ih =>
      cases i with
      | zero => exact (Option.some_inj.mp h) ▸ List.mem_cons_self b l
      | succ j => exact List.mem_cons_of_mem b (ih j h)

/-- Indexing a replicated list within bounds. -/
theorem get_replicate_lt (a : α) (n i : Nat) (h : i < n) :
    (List.replicate n a).get? i = some a := by
  induction n generalizing i with
  | zero => omega
  | succ n ih =>
      cases i with
      | zero => rfl
      | succ j => exact ih j (by omega)

/-- Every fitted vector has exactly 300 entries. -/
theorem fitTo300_length (v : List Float) : (fitTo300 v).length = 300 := by
  unfold fitTo300
  by_cases h1 : v.length = 300
  · rw [if_pos h1]; exact h1
  · rw [if_neg h1]
    by_cases h2 : v.length < 300
    · rw [if_pos h2]
      rw [List.length_append, List.length_replicate]
      omega
    · rw [if_neg h2]
      rw [List.length_take]
      omega

/-- A processed chunk yields one vector per input text. -/
theorem processBatchChunk_length (m : NlpModel) (texts : List String) :
    (processBatchChunk m texts).length = texts.length := by
  simp only [processBatchChunk]
  split
  · rw [List.length_map, List.length_map]
  · rw [List.length_replicate]

/-- Every vector a processed chunk yields has exactly 300 entries. -/
theorem processBatchChunk_dim (m : NlpModel) (texts : List String) :
    ∀ v ∈ processBatchChunk m texts, v.length = 300 := by
  intro v hv
  simp only [processBatchChunk] at hv
  split at hv
  · obtain ⟨t, _, rfl⟩ := List.mem_map.mp hv
    exact fitTo300_length _
  · rw [List.eq_of_mem_replicate hv]
    unfold zeroVec300
    rw [List.length_replicate]

/-- A per-text failure inside a chunk makes that text's slot (indeed the
whole chunk) the zero vector. -/
theorem processBatchChunk_get_zero (m : NlpModel) (texts : List String) (i : Nat)
    (t : String) (hget : texts.get? i = some t) (hfail : m (cleanCodeText t) = none) :
    (processBatchChunk m texts).get? i = some zeroVec300 := by
  have hnotall : ¬ ((texts.map cleanCodeText).all (fun t2 => (m t2).isSome) = true) := by
    intro hall
    have hsome := List.all_eq_true.mp hall (cleanCodeText t)
      (List.mem_map_of_mem cleanCodeText (mem_of_get_some texts i t hget))
    rw [hfail] at hsome
    exact absurd hsome (by decide)
  simp only [processBatchChunk]
  rw [if_neg hnotall]
  exact get_replicate_lt zeroVec300 texts.length i (get_some_lt texts i t hget)

/-- Chunked batch processing yields one vector per input text. -/
theorem flatMap_chunksOf_length (m : NlpModel) (l : List String) :
    ((chunksOf 50 l).flatMap (fun c => processBatchChunk m c)).length = l.length := by
  rw [chunksOf]
  by_cases h : l.isEmpty = true
  · rw [if_pos (by simp [h])]
    rw [List.isEmpty_iff.mp h]
    rfl
  · rw [if_neg (by simp [h])]
    rw [List.flatMap_cons, List.length_append, processBatchChunk_length,
      flatMap_chunksOf_length m (l.drop 50), List.length_take, List.length_drop]
    omega
termination_by l.length
decreasing_by
  have hne : l ≠ [] := fun he => h (by simp [he])
  have := List.length_pos.mpr hne
  simp only [List.length_drop]
  omega

/-- A per-text failure in chunked batch processing makes that text's
slot the zero vector. -/
theorem flatMap_chunksOf_get_zero (m : NlpModel) (l : List String) (i : Nat)
    (t : String) (hget : l.get? i = some t) (hfail : m (cleanCodeText t) = none) :
    ((chunksOf 50 l).flatMap (fun c => processBatchChunk m c)).get? i =
      some zeroVec300 := by
  have hi : i < l.length := get_some_lt l i t hget
  have hne : ¬ (l.isEmpty = true) := by
    intro he
    rw [List.isEmpty_iff.mp he] at hi
    exact absurd hi (by simp)
  rw [chunksOf]
  rw [if_neg (by simp; exact fun he => absurd (List.isEmpty_iff.mpr he) hne)]
  rw [List.flatMap_cons]
  by_cases hlt : i < 50
  · rw [List.get?_append (by rw [processBatchChunk_length, List.length_take]; omega)]
    apply processBatchChunk_get_zero m (l.take 50) i t _ hfail
    rw [List.get?_take hlt]
    exact hget
  · rw [List.get?_append_right (by rw [processBatchChunk_length, List.length_take]; omega)]
    rw [processBatchChunk_length, List.length_take]
    have hmin : min 50 l.length = 50 := by omega
    rw [hmin]
    apply flatMap_chunksOf_get_zero m (l.drop 50) (i - 50) t _ hfail
    rw [List.get?_drop]
    have heq : 50 + (i - 50) = i := by omega
    rw [heq]
    exact hget
termination_by l.length
decreasing_by
  have := List.length_pos.mpr (fun he => hne (List.isEmpty_iff.mpr he))
  simp only [List.length_drop]
  omega

/-- C9: with a loaded model, `get_embedding` returns exactly 300 floats
(padding or truncating), and returns the 300-zero vector instead of
raising on a per-text failure; `batch_get_embeddings` returns one
vector per input text, each of exactly 300 floats, chunking internally,
and a text whose processing fails yields the 300-zero vector in its
slot rather than an exception. -/
theorem embeddings_dim300_and_zero_fallback (m : NlpModel) (text : String)
    (texts : List String) :
    (∃ v, getEmbedding (some m) text = .ok v ∧ v.length = 300)
    ∧ (m text = none → getEmbedding (some m) text = .ok zeroVec300)
    ∧ ∃ vs, batchGetEmbeddings (some m) texts = .ok vs
        ∧ vs.length = texts.length
        ∧ (∀ v ∈ vs, v.length = 300)
        ∧ ∀ i t2, texts.get? i = some t2 → m (cleanCodeText t2) = none →
            vs.get? i = some zeroVec300 := by
  refine ⟨?_, ?_, ?_⟩
  · cases hm : m text with
    | some v =>
        refine ⟨fitTo300 v, ?_, fitTo300_length v⟩
        simp only [getEmbedding, hm]
    | none =>
        refine ⟨zeroVec300, ?_, by unfold zeroVec300; rw [List.length_replicate]⟩
        simp only [getEmbedding, hm]
  · intro h
    simp only [getEmbedding, h]
  · by_cases h : texts.length > 50
    · have hval : batchGetEmbeddings (some m) texts =
          .ok ((chunksOf 50 texts).flatMap (fun c => processBatchChunk m c)) := by
        simp only [batchGetEmbeddings]
        rw [if_pos h]
      refine ⟨_, hval, flatMap_chunksOf_length m texts, ?_, ?_⟩
      · intro v hv
        obtain ⟨c, _, hvc⟩ := List.mem_flatMap.mp hv
        exact processBatchChunk_dim m c v hvc
      · intro i t2 hget hfail
        exact flatMap_chunksOf_get_zero m texts i t2 hget hfail
    · have hval : batchGetEmbeddings (some m) texts =
          .ok (processBatchChunk m texts) := by
        simp only [batchGetEmbeddings]
        rw [if_neg h]
      refine ⟨_, hval, processBatchChunk_length m texts, ?_, ?_⟩
      · intro v hv
        exact processBatchChunk_dim m texts v hv
      · intro i t2 hget hfail
        exact processBatchChunk_get_zero m texts i t2 hget hfail

/-! ## C8 — the fallback line-pattern extractor is line-local -/

/-- Membership in an enumeration: the index locates the element. -/
theorem mem_enumFrom (l : List α) (n i : Nat) (x : α) :
    (i, x) ∈ enumFrom n l ↔ n ≤ i ∧ l.get? (i - n) = some x := by
  induction l generalizing n with
  | nil => simp [enumFrom, List.get?]
  | cons a l ih =>
      simp only [enumFrom, List.mem_cons, Prod.mk.injEq, ih (n + 1)]
      constructor
      · rintro (⟨rfl, rfl⟩ | ⟨h1, h2⟩)
        · refine ⟨le_refl _, ?_⟩
          rw [Nat.sub_self]
          rfl
        · refine ⟨by omega, ?_⟩
          have heq : i - n = (i - (n + 1)) + 1 := by omega
          rw [heq]
          exact h2
      · rintro ⟨h1, h2⟩
        by_cases he : i = n
        · subst he
          rw [Nat.sub_self] at h2
          exact Or.inl ⟨rfl, (Option.some_inj.mp h2).symm⟩
        · right
          refine ⟨by omega, ?_⟩
          have heq : i - n = (i - (n + 1)) + 1 := by omega
          rw [heq] at h2
          exact h2

/-- The length of a `filterMap` counts the hits. -/
theorem length_filterMap_eq_countP (f : α → Option β) (l : List α) :
    (l.filterMap f).length = l.countP (fun a => (f a).isSome) := by
  induction l with
  | nil => rfl
  | cons a l ih =>
      cases hf : f a with
      | none =>
          rw [List.filterMap_cons_none hf, List.countP_cons, ih]
          simp [hf]
      | some b =>
          rw [List.filterMap_cons_some hf, List.countP_cons]
          simp [hf, ih]

/-- Counting an index-blind predicate over an enumeration counts over
the underlying list. -/
theorem countP_enumFrom (l : List α) (n : Nat) (q : α → Bool) :
    (enumFrom n l).countP (fun p => q p.2) = l.countP q := by
  induction l generalizing n with
  | nil => rfl
  | cons a l ih =>
      simp only [enumFrom, List.countP_cons, ih (n + 1)]

/-- C8: every symbol the Python fallback extractor yields spans exactly
its matching line (`line_start = line_end`), its snippet is that
(stripped) line, and its name is the pattern's first capture group; and
the extractor yields exactly one symbol per pattern match — the output
length is the number of function-pattern matches plus the number of
class-pattern matches, so multi-line signatures are never merged. -/
theorem extractSymbolsRegex_line_local (lines : List String) (fp lang : String) :
    (∀ s ∈ extractSymbolsRegex lines fp lang,
        s.lineEnd = s.lineStart
        ∧ ∃ line, lines.get? (s.lineStart - 1) = some line
            ∧ s.codeSnippet = pyStrip line
            ∧ (matchDefFunc (pyStrip line).data = some s.name
                ∨ matchClassDecl (pyStrip line).data = some s.name))
    ∧ (extractSymbolsRegex lines fp lang).length =
        lines.countP (fun line => (matchDefFunc (pyStrip line).data).isSome)
          + lines.countP (fun line => (matchClassDecl (pyStrip line).data).isSome) := by
  constructor
  · intro s hs
    unfold extractSymbolsRegex at hs
    rcases List.mem_append.mp hs with hs | hs
    · obtain ⟨⟨i, line⟩, hmem, heq⟩ := List.mem_filterMap.mp hs
      obtain ⟨nm, hnm, hmk⟩ := Option.map_eq_some'.mp heq
      subst hmk
      obtain ⟨_, hget⟩ := (mem_enumFrom lines 0 i line).mp hmem
      refine ⟨rfl, line, ?_, rfl, Or.inl ?_⟩
      · simpa using hget
      · exact hnm
    · obtain ⟨⟨i, line⟩, hmem, heq⟩ := List.mem_filterMap.mp hs
      obtain ⟨nm, hnm, hmk⟩ := Option.map_eq_some'.mp heq
      subst hmk
      obtain ⟨_, hget⟩ := (mem_enumFrom lines 0 i line).mp hmem
      refine ⟨rfl, line, ?_, rfl, Or.inr ?_⟩
      · simpa using hget
      · exact hnm
  · unfold extractSymbolsRegex
    rw [List.length_append, length_filterMap_eq_countP, length_filterMap_eq_countP]
    have h1 : (enumFrom 0 lines).countP (fun p =>
        ((matchDefFunc (pyStrip p.2).data).map (fun nm =>
          mkLineSymbol nm "function" p.1 (pyStrip p.2) fp lang)).isSome) =
        (enumFrom 0 lines).countP (fun p => (matchDefFunc (pyStrip p.2).data).isSome) := by
      apply List.countP_congr
      intro p _
      cases matchDefFunc (pyStrip p.2).data <;> simp
    have h2 : (enumFrom 0 lines).countP (fun p =>
        ((matchClassDecl (pyStrip p.2).data).map (fun nm =>
          mkLineSymbol nm "class" p.1 (pyStrip p.2) fp lang)).isSome) =
        (enumFrom 0 lines).countP (fun p => (matchClassDecl (pyStrip p.2).data).isSome) := by
      apply List.countP_congr
      intro p _
      cases matchClassDecl (pyStrip p.2).data <;> simp
    have e1 := countP_enumFrom lines 0
      (fun line => (matchDefFunc (pyStrip line).data).isSome)
    have e2 := countP_enumFrom lines 0
      (fun line => (matchClassDecl (pyStrip line).data).isSome)
    rw [h1, h2]
    exact congrArg₂ HAdd.hAdd e1 e2

/-! ## C7 — call attribution in relationship inference -/

/-- Appending to a bucket adds exactly one flattened edge. -/
theorem mem_dictEdges_append (d : RelDict) (k : String) (r : RawRel)
    (x : String × RawRel) :
    x ∈ dictEdges (dictAppend d k r) ↔ x = (k, r) ∨ x ∈ dictEdges d := by
  induction d with
  | nil => simp [dictAppend, dictEdges]
  | cons p rest ih =>
      obtain ⟨k', rs⟩ := p
      by_cases hk : k' = k
      · subst hk
        have hda : dictAppend ((k', rs) :: rest) k' r = (k', rs ++ [r]) :: rest := by
          simp [dictAppend]
        rw [hda]
        simp only [dictEdges, List.flatMap_cons, List.mem_append, List.mem_map,
          List.map_append, List.map_cons, List.map_nil, List.mem_singleton]
        constructor
        · rintro ((h | h) | h)
          · exact Or.inr (Or.inl h)
          · exact Or.inl h
          · exact Or.inr (Or.inr h)
        · rintro (h | (h | h))
          · exact Or.inl (Or.inr h)
          · exact Or.inl (Or.inl h)
          · exact Or.inr h
      · have hda : dictAppend ((k', rs) :: rest) k r =
            (k', rs) :: dictAppend rest k r := by
          simp only [dictAppend]
          rw [if_neg hk]
        rw [hda]
        simp only [dictEdges, List.flatMap_cons, List.mem_append] at ih ⊢
        rw [ih]
        tauto

/-- Folding a list of emissions into the dict adds exactly those edges. -/
theorem foldl_dictAppend_mem (ems : List (String × RawRel)) (d : RelDict)
    (x : String × RawRel) :
    x ∈ dictEdges (ems.foldl (fun d2 p => dictAppend d2 p.1 p.2) d) ↔
      x ∈ dictEdges d ∨ x ∈ ems := by
  induction ems generalizing d with
  | nil => simp
  | cons e ems ih =>
      rw [List.foldl_cons, ih, mem_dictEdges_append]
      simp only [List.mem_cons, Prod.mk.eta]
      tauto

/-- A fold whose step conditionally appends one emission equals the fold
of the emitted list. -/
theorem foldl_emit_eq {β : Type} (emit : β → Option (String × RawRel))
    (toks : List β) (d : RelDict) :
    toks.foldl (fun d2 tok =>
        match emit tok with
        | some p => dictAppend d2 p.1 p.2
        | none => d2) d
      = (toks.filterMap emit).foldl (fun d2 p => dictAppend d2 p.1 p.2) d := by
  induction toks generalizing d with
  | nil => rfl
  | cons tok toks ih =>
      cases he : emit tok with
      | none =>
          rw [List.foldl_cons, List.filterMap_cons_none he]
          simp only [he]
          exact ih d
      | some p =>
          rw [List.foldl_cons, List.filterMap_cons_some he]
          simp only [he, List.foldl_cons]
          exact ih _

/-- The per-token emission of the call scan at line `i + 1`. -/
def callEmit (symbols : List ParsedSymbol) (i : Nat) (tok : String) :
    Option (String × RawRel) :=
  if tok ∈ pySkipKeywords then none
  else (firstContaining symbols (i + 1)).map (fun s =>
    (s.name, (⟨"calls", tok, "function", i + 1⟩ : RawRel)))

/-- The call scan of one line is the fold of its emissions. -/
theorem addLineCalls_eq (symbols : List ParsedSymbol) (d : RelDict) (i : Nat)
    (line : String) :
    addLineCalls symbols d i line =
      ((callTokens line.data).filterMap (callEmit symbols i)).foldl
        (fun d2 p => dictAppend d2 p.1 p.2) d := by
  rw [← foldl_emit_eq]
  unfold addLineCalls
  congr 1
  funext d2 tok
  by_cases h : tok ∈ pySkipKeywords
  · rw [if_pos h]
    simp [callEmit, h]
  · rw [if_neg h]
    cases hf : firstContaining symbols (i + 1) with
    | none => simp [callEmit, h, hf]
    | some s => simp [callEmit, h, hf]

/-- A fold whose per-item step folds that item's emissions into the dict
adds exactly the union of the items' emissions. -/
theorem foldl_perItem_mem {β : Type} (items : List β)
    (perItem : β → List (String × RawRel)) (step : RelDict → β → RelDict)
    (hstep : ∀ d2 b, step d2 b =
      (perItem b).foldl (fun d3 p => dictAppend d3 p.1 p.2) d2)
    (d : RelDict) (x : String × RawRel) :
    x ∈ dictEdges (items.foldl step d) ↔
      x ∈ dictEdges d ∨ ∃ b ∈ items, x ∈ perItem b := by
  induction items generalizing d with
  | nil => simp
  | cons b items ih =>
      rw [List.foldl_cons, hstep, ih, foldl_dictAppend_mem]
      constructor
      · rintro ((h | h) | ⟨b2, hb2, hx⟩)
        · exact Or.inl h
        · exact Or.inr ⟨b, List.mem_cons_self b items, h⟩
        · exact Or.inr ⟨b2, List.mem_cons_of_mem b hb2, hx⟩
      · rintro (h | ⟨b2, hb2, hx⟩)
        · exact Or.inl (Or.inl h)
        · rcases List.mem_cons.mp hb2 with rfl | hb2
          · exact Or.inl (Or.inr hx)
          · exact Or.inr ⟨b2, hb2, hx⟩

/-- The inherits emission of one enumerated line. -/
def inheritEmit (p : Nat × String) : Option (String × RawRel) :=
  (matchClassInherit (pyStrip p.2).data).map (fun q =>
    (q.1, (⟨"inherits", q.2, "class", p.1 + 1⟩ : RawRel)))

/-- The flattened edge set of `extract_relationships`: an edge is a call
emission of some line, or an inherits emission of some line. -/
theorem mem_dictEdges_extractRelationships (content : String)
    (symbols : List ParsedSymbol) (x : String × RawRel) :
    x ∈ dictEdges (extractRelationships content symbols) ↔
      (∃ p ∈ enumFrom 0 (pyLines content),
          x ∈ (callTokens p.2.data).filterMap (callEmit symbols p.1))
      ∨ ∃ p ∈ enumFrom 0 (pyLines content), inheritEmit p = some x := by
  have hinner := foldl_perItem_mem (enumFrom 0 (pyLines content))
    (fun p => (callTokens p.2.data).filterMap (callEmit symbols p.1))
    (fun d p => addLineCalls symbols d p.1 p.2)
    (fun d2 p => addLineCalls_eq symbols d2 p.1 p.2)
    [] x
  have houter : (fun (d : RelDict) (p : Nat × String) =>
      match matchClassInherit (pyStrip p.2).data with
      | some q => dictAppend d q.1 ⟨"inherits", q.2, "class", p.1 + 1⟩
      | none => d) = (fun (d : RelDict) (p : Nat × String) =>
      match inheritEmit p with
      | some pr => dictAppend d pr.1 pr.2
      | none => d) := by
    funext d p
    cases hm : matchClassInherit (pyStrip p.2).data with
    | none => simp [inheritEmit, hm]
    | some q => simp [inheritEmit, hm]
  simp only [extractRelationships]
  rw [houter, foldl_emit_eq, foldl_dictAppend_mem, hinner]
  simp only [dictEdges, List.flatMap_nil, List.not_mem_nil, false_or,
    List.mem_filterMap]

/-- `find?` returns the first hit: the list splits at the result, with
everything before it failing the predicate. -/
theorem find_eq_some_split (p : α → Bool) (l : List α) (a : α) :
    l.find? p = some a ↔
      p a = true ∧ ∃ l1 l2, l = l1 ++ a :: l2 ∧ ∀ x ∈ l1, p x = false := by
  induction l with
  | nil => simp
  | cons b l ih =>
      by_cases hb : p b = true
      · rw [List.find?_cons_of_pos _ hb]
        constructor
        · intro h
          obtain rfl := Option.some_inj.mp h
          exact ⟨hb, [], l, rfl, by simp⟩
        · rintro ⟨hpa, l1, l2, heq, hl1⟩
          cases l1 with
          | nil =>
              simp only [List.nil_append, List.cons.injEq] at heq
              rw [heq.1]
          | cons c l1 =>
              simp only [List.cons_append, List.cons.injEq] at heq
              have hc := hl1 c (List.mem_cons_self c l1)
              rw [← heq.1, hb] at hc
              exact absurd hc (by decide)
      · rw [List.find?_cons_of_neg _ hb, ih]
        constructor
        · rintro ⟨hpa, l1, l2, heq, hl1⟩
          refine ⟨hpa, b :: l1, l2, by rw [heq, List.cons_append], ?_⟩
          intro x hx
          rcases List.mem_cons.mp hx with rfl | hx
          · exact Bool.eq_false_iff.mpr hb
          · exact hl1 x hx
        · rintro ⟨hpa, l1, l2, heq, hl1⟩
          cases l1 with
          | nil =>
              simp only [List.nil_append, List.cons.injEq] at heq
              rw [heq.1] at hb
              exact absurd hpa hb
          | cons c l1 =>
              simp only [List.cons_append, List.cons.injEq] at heq
              exact ⟨hpa, l1, l2, heq.2,
                fun x hx => hl1 x (List.mem_cons_of_mem c hx)⟩

/-- C7: the `calls` edges of Python relationship inference, exactly:
an edge `(name, r)` with type `calls` exists iff some line of the file
yields `r.target` as an `identifier(` token, the token is not in the
keyword/builtin stoplist, and the first symbol in extraction order
whose `[line_start, line_end]` range contains that line is named
`name` (every symbol before it in the list fails the containment
test).  In particular a stoplisted token yields no edge, and a call on
a line contained in no symbol's range yields no edge. -/
theorem extractRelationships_call_attribution (content : String)
    (symbols : List ParsedSymbol) (name : String) (r : RawRel) :
    ((name, r) ∈ dictEdges (extractRelationships content symbols)
        ∧ r.rtype = "calls")
    ↔ ∃ i line, (pyLines content).get? i = some line
        ∧ r.target ∈ callTokens line.data
        ∧ r.target ∉ pySkipKeywords
        ∧ r = ⟨"calls", r.target, "function", i + 1⟩
        ∧ ∃ pre s post, symbols = pre ++ s :: post
            ∧ s.name = name
            ∧ (s.lineStart ≤ i + 1 ∧ i + 1 ≤ s.lineEnd)
            ∧ ∀ s2 ∈ pre, ¬(s2.lineStart ≤ i + 1 ∧ i + 1 ≤ s2.lineEnd) := by
  constructor
  · rintro ⟨hmem, htype⟩
    rcases (mem_dictEdges_extractRelationships content symbols (name, r)).mp hmem with
      ⟨⟨i, line⟩, hp, hx⟩ | ⟨⟨i, line⟩, hp, hx⟩
    · replace hx : (name, r) ∈
          (callTokens line.data).filterMap (callEmit symbols i) := hx
      obtain ⟨tok, htok, hemit⟩ := List.mem_filterMap.mp hx
      unfold callEmit at hemit
      by_cases hskip : tok ∈ pySkipKeywords
      · rw [if_pos hskip] at hemit
        exact absurd hemit (by simp)
      · rw [if_neg hskip] at hemit
        obtain ⟨s, hfind, hpair⟩ := Option.map_eq_some'.mp hemit
        rw [Prod.mk.injEq] at hpair
        obtain ⟨hname, hrel⟩ := hpair
        subst hrel
        obtain ⟨_, hget⟩ := (mem_enumFrom (pyLines content) 0 i line).mp hp
        obtain ⟨hcont, pre, post, hsplit, hpre⟩ :=
          (find_eq_some_split _ symbols s).mp hfind
        simp only [Bool.and_eq_true, decide_eq_true_eq] at hcont
        refine ⟨i, line, by simpa using hget, htok, hskip, rfl,
          pre, s, post, hsplit, hname, hcont, ?_⟩
        intro s2 hs2
        have h2 := hpre s2 hs2
        rw [Bool.and_eq_false_iff] at h2
        intro hc
        rcases h2 with h2 | h2
        · rw [decide_eq_false_iff_not] at h2
          exact h2 hc.1
        · rw [decide_eq_false_iff_not] at h2
          exact h2 hc.2
    · exfalso
      replace hx : inheritEmit (i, line) = some (name, r) := hx
      unfold inheritEmit at hx
      obtain ⟨q, _, hpair⟩ := Option.map_eq_some'.mp hx
      rw [Prod.mk.injEq] at hpair
      obtain ⟨_, hrel⟩ := hpair
      subst hrel
      have hinh : ("inherits" : String) = "calls" := htype
      exact absurd hinh (by decide)
  · rintro ⟨i, line, hget, htok, hskip, hreq, pre, s, post, hsplit, hname, hcont, hpre⟩
    constructor
    · apply (mem_dictEdges_extractRelationships content symbols (name, r)).mpr
      left
      refine ⟨(i, line), ?_, ?_⟩
      · exact (mem_enumFrom (pyLines content) 0 i line).mpr
          ⟨Nat.zero_le i, by simpa using hget⟩
      · show (name, r) ∈ (callTokens line.data).filterMap (callEmit symbols i)
        apply List.mem_filterMap.mpr
        refine ⟨r.target, htok, ?_⟩
        unfold callEmit
        rw [if_neg hskip]
        have hfind : firstContaining symbols (i + 1) = some s := by
          apply (find_eq_some_split _ symbols s).mpr
          refine ⟨?_, pre, post, hsplit, ?_⟩
          · simp only [Bool.and_eq_true, decide_eq_true_eq]
            exact hcont
          · intro x hx
            have h2 := hpre x hx
            rw [Bool.and_eq_false_iff]
            by_cases h1 : x.lineStart ≤ i + 1
            · right
              rw [decide_eq_false_iff_not]
              exact fun h3 => h2 ⟨h1, h3⟩
            · left
              rw [decide_eq_false_iff_not]
              exact h1
        rw [hfind, Option.map_some', hname, ← hreq]
    · rw [hreq]
